import Mathlib

/-!
Verification of the UEFI string codec (`src/data_types/strs.rs`).

The codec converts between native Rust strings (Unicode, UTF-8) and
firmware-style fixed-width null-terminated strings (8-bit Latin-1-like
`Char8` and 16-bit UCS-2-like `Char16`).

Modelling conventions:
* Fixed-width code units (`Char::IntRepr`, i.e. `u8` / `u16`) are `Nat`s;
  the per-kind validity checks carry the width bound.
* A native string is modelled by its list of Unicode scalar values
  (`List Char`).  The encoder iterates `input.grapheme_indices(true)` from
  the external `unicode_segmentation` crate, so the encoder's input is the
  grapheme decomposition of the string: a `List (List Char)` whose
  flattening is the string's character sequence.  Byte offsets are
  recovered from the UTF-8 size of each character.
* A `CStr<Char>` value is modelled by the list of code units it spans
  (terminator included, exactly the slice wrapped by
  `from_ints_with_nul_unchecked`).
* Fallible operations return `Except`; the `unimplemented!()` stub at the
  end of `decode` is a distinguished `DecodeResult.panicUnimplemented`
  outcome.
-/

/-- Modelled from the spec: the code-unit abstraction of `data_types/chars.rs`
(the `Character` trait), which is not part of the excerpted sources.  A kind
bundles, per spec section 4.1: a total decoding of the kind's integer
representation into a character or a failure (`Char::try_from(IntRepr)`),
a partial encoding of a native character into a code unit
(`Char::try_from(char)` composed with `.into()`), the trusted conversion of a
stored code unit back into a native character (`Into<char>`), and the kind's
designated null and carriage-return code units and null character. -/
structure CharKind where
  decodeInt : Nat → Option Char
  encodeChar : Char → Option Nat
  intoChar : Nat → Char
  nulUnit : Nat
  crUnit : Nat
  nulChar : Char

/-- Modelled from the spec: the 8-bit Latin-1-like kind (`Char8`, `IntRepr = u8`).
Every `u8` is a valid Latin-1 character; a native character is representable
iff its scalar value fits in 8 bits. -/
def char8Kind : CharKind where
  decodeInt n := if n < 256 then some (Char.ofNat n) else none
  encodeChar c := if c.toNat < 256 then some c.toNat else none
  intoChar n := Char.ofNat n
  nulUnit := 0
  crUnit := 13
  nulChar := Char.ofNat 0

/-- Modelled from the spec: the 16-bit UCS-2-like kind (`Char16`,
`IntRepr = u16`): basic multilingual plane only, no surrogate-pair
composition; the surrogate range is not decodable. -/
def char16Kind : CharKind where
  decodeInt n := if n < 55296 ∨ (57343 < n ∧ n < 65536) then some (Char.ofNat n) else none
  encodeChar c := if c.toNat < 65536 then some c.toNat else none
  intoChar n := Char.ofNat n
  nulUnit := 0
  crUnit := 13
  nulChar := Char.ofNat 0

/-- The UTF-8 byte sequence of one character (Rust `char::encode_utf8`). -/
def utf8Bytes (c : Char) : List Nat :=
  let n := c.toNat
  if n < 128 then [n]
  else if n < 2048 then [192 + n / 64, 128 + n % 64]
  else if n < 65536 then [224 + n / 4096, 128 + (n / 64) % 64, 128 + n % 64]
  else [240 + n / 262144, 128 + (n / 4096) % 64, 128 + (n / 64) % 64, 128 + n % 64]

/-- The UTF-8 width of one character (Rust `char::len_utf8`, and the stride of
`str::char_indices` / grapheme byte offsets). -/
def csize (c : Char) : Nat := (utf8Bytes c).length

/-- The UTF-8 byte length of a character sequence (Rust `str::len`). -/
def utf8Len (s : List Char) : Nat := (s.map csize).sum

/-- The UTF-8 byte sequence of a character sequence. -/
def utf8EncodeList : List Char → List Nat
  | [] => []
  | c :: cs => utf8Bytes c ++ utf8EncodeList cs

/-- Errors of checked `[uN] -> CStrN` conversion (`FromIntsWithNulError`). -/
inductive FromIntsWithNulError where
  | invalidChar (pos : Nat)
  | interiorNul (pos : Nat)
  | notNulTerminated
deriving DecidableEq, Repr

/-- The scanning loop of `CStr::from_ints_with_nul`: iterate over
`codes.iter().enumerate()` starting at position `pos`, where `total` is
`codes.len()` of the full slice. -/
def fromIntsGo (k : CharKind) (total : Nat) : List Nat → Nat → Except FromIntsWithNulError Unit
  | [], _ => .error .notNulTerminated
  | code :: rest, pos =>
    match k.decodeInt code with
    | none => .error (.invalidChar pos)
    | some c =>
      if c = k.nulChar then
        if pos ≠ total - 1 then .error (.interiorNul pos) else .ok ()
      else fromIntsGo k total rest (pos + 1)

/-- `CStr::from_ints_with_nul`: validating construction of a null-terminated
string view; on success the view wraps the whole slice, terminator included. -/
def fromIntsWithNul (k : CharKind) (codes : List Nat) : Except FromIntsWithNulError (List Nat) :=
  (fromIntsGo k codes.length codes 0).map fun _ => codes

/-- Errors of Rust -> UEFI string conversion (`StrEncodeError`). -/
inductive StrEncodeError where
  | bufferTooSmall
  | unsupportedChar (idx : Nat)
  | interiorNul (idx : Nat)
deriving DecidableEq, Repr

/-- Successful result of `encode`: the returned `&CStr` (the code units it
spans), together with the internal committed cursors and the unconverted
remainder of the input. -/
structure EncodeOk where
  view : List Nat
  encodedLen : Nat
  parsedLen : Nat
  remainder : Option (List Char)
deriving DecidableEq, Repr

/-- Outcome of the per-grapheme inner loop of `encode`: an error return, a
`break 'graphemes` (with the current `output_idx` and buffer), or normal
completion of the grapheme's characters. -/
inductive InnerStep where
  | err (e : StrEncodeError)
  | brk (outIdx : Nat) (buf : List Nat)
  | cont (outIdx : Nat) (buf : List Nat)
deriving DecidableEq, Repr

/-- The inner character loop of `encode` over one grapheme cluster
(`for (input_idx, input_char) in grapheme.char_indices()`).  `off` is the
byte offset of the current character relative to the start of the grapheme
(`grapheme.char_indices()` restarts at 0 for every grapheme), `outIdx` is
`output_idx` and `cap` is `buffer_capacity`. -/
def encodeInner (k : CharKind) (cap : Nat) : List Char → Nat → Nat → List Nat → InnerStep
  | [], _, outIdx, buf => .cont outIdx buf
  | c :: cs, off, outIdx, buf =>
    if c = Char.ofNat 0 then .err (.interiorNul off)
    else if c = '\n' then
      if outIdx < cap then
        match k.encodeChar c with
        | none => .err (.unsupportedChar off)
        | some u =>
          if outIdx + 1 < cap then
            encodeInner k cap cs (off + csize c) (outIdx + 2) (((buf.set outIdx k.crUnit).set (outIdx + 1) u))
          else .brk (outIdx + 1) (buf.set outIdx k.crUnit)
      else .brk outIdx buf
    else
      match k.encodeChar c with
      | none => .err (.unsupportedChar off)
      | some u =>
        if outIdx < cap then encodeInner k cap cs (off + csize c) (outIdx + 1) (buf.set outIdx u)
        else .brk outIdx buf

/-- The outer grapheme loop of `encode`
(`'graphemes: for (grapheme_idx, grapheme) in input.grapheme_indices(true)`).
State: `parsed` is `parsed_input_len`, `encLen` is `encoded_output_len`,
`outIdx` is `output_idx`.  On success it also returns the unconsumed suffix
of the grapheme list (empty when the loop ran to completion), which
determines `&input[parsed_input_len..]`. -/
def encodeOuter (k : CharKind) (cap : Nat) :
    List (List Char) → Nat → Nat → Nat → List Nat →
    Except StrEncodeError (Nat × Nat × Nat × List Nat × List (List Char))
  | [], parsed, encLen, outIdx, buf => .ok (parsed, encLen, outIdx, buf, [])
  | g :: gs, parsed, encLen, outIdx, buf =>
    match encodeInner k cap g 0 outIdx buf with
    | .err e => .error e
    | .brk outIdx' buf' => .ok (parsed, encLen, outIdx', buf', g :: gs)
    | .cont outIdx' buf' => encodeOuter k cap gs (parsed + utf8Len g) outIdx' outIdx' buf'

/-- `encode`: convert a native string (given by its grapheme decomposition)
into a firmware buffer of code units.  `buffer.len() - 1` units are usable,
the last slot being reserved for the terminator.  After the loop the
terminator is written at `encoded_output_len` and — exactly as in the source
(`CStr::from_ints_with_nul_unchecked(buffer)`) — the returned view spans the
ENTIRE buffer, not just the written prefix. -/
def encode (k : CharKind) (input : List (List Char)) (buffer : List Nat) :
    Except StrEncodeError EncodeOk :=
  let cap := buffer.length - 1
  match encodeOuter k cap input 0 0 0 buffer with
  | .error e => .error e
  | .ok (parsed, encLen, _, buf, rest) =>
    let remaining : Option (List Char) :=
      if parsed < utf8Len input.flatten then some rest.flatten else none
    if parsed = 0 ∧ remaining.isSome then .error .bufferTooSmall
    else .ok { view := buf.set encLen k.nulUnit, encodedLen := encLen,
               parsedLen := parsed, remainder := remaining }

/-- Outcome type of `decode`.  The source's `decode` either returns
`Ok((str, remainder))`, returns `Err(StrDecodeError::BufferTooSmall)`, or
reaches the `unimplemented!()` stub on the truncated-with-progress path;
the latter is modelled as the distinguished `panicUnimplemented` outcome. -/
inductive DecodeResult where
  | ok (output : List Char) (remainder : Option (List Nat))
  | bufferTooSmall
  | panicUnimplemented
deriving DecidableEq, Repr

/-- The conversion loop of `decode` at the byte level, exactly as in the
source: `out` is the committed prefix `buffer[..output_idx]` of the
destination byte buffer of length `bufLen`.  A character is appended as its
UTF-8 bytes when it fits; a line feed immediately following an emitted
carriage return is collapsed by `buffer[output_idx-2] = b'\n'` followed by
`output_idx -= 1`. -/
def decodeLoopBytes (bufLen : Nat) : List Char → List Nat → Bool → (List Nat × Bool)
  | [], out, _ => (out, false)
  | ch :: rest, out, afterCr =>
    if (utf8Bytes ch).length ≤ bufLen - out.length then
      let out2 := out ++ utf8Bytes ch
      let out3 := if afterCr ∧ ch = '\n'
        then (out2.set (out2.length - 2) 10).take (out2.length - 1)
        else out2
      decodeLoopBytes bufLen rest out3 (ch = '\r')
    else (out, true)

/-- The conversion loop of `decode` at the character level: the same loop
tracking the committed characters instead of their UTF-8 bytes.  The
agreement lemma `decodeLoopBytes_eq_chars` below shows the byte-level loop
produces exactly the UTF-8 encoding of this loop's output, which is why the
source's `core::str::from_utf8(&buffer[..output_idx])` cannot fail. -/
def decodeLoopChars (bufLen : Nat) : List Char → List Char → Bool → (List Char × Bool)
  | [], out, _ => (out, false)
  | ch :: rest, out, afterCr =>
    if (utf8Bytes ch).length ≤ bufLen - utf8Len out then
      let out2 := if afterCr ∧ ch = '\n' then out.dropLast ++ ['\n'] else out ++ [ch]
      decodeLoopChars bufLen rest out2 (ch = '\r')
    else (out, true)

/-- Modelled from the spec: the backoff of `decode` to the previous
boundary uses `GraphemeCursor::prev_boundary` from the external
`unicode_segmentation` crate (spec section 4.4: "back off the decoded output
to the previous grapheme-cluster boundary ... using Unicode segmentation
boundary search over the already-decoded text").  For decoded text in which
every scalar value is its own extended grapheme cluster (true of all inputs
considered here, which contain no combining marks and no CR immediately
followed by LF in the truncated output), the previous boundary before the
end is the start of the last character, so the retained prefix
`output[..last_grapheme_idx]` is `out.dropLast`. -/
def decodeBackoff (out : List Char) : List Char := out.dropLast

/-- `decode`: convert a firmware string view (the code units it spans,
terminator included) into native text, using a destination byte buffer of
`bufLen` bytes.  `char_indices` iterates the view's code units excluding the
terminator, converting each by the trusted `Into<char>`.  If the loop was
not truncated, return the decoded text and no remainder.  Otherwise back off
to the previous grapheme boundary; if nothing remains the result is
`BufferTooSmall`, and otherwise the source reaches `unimplemented!()`. -/
def decode (k : CharKind) (input : List Nat) (bufLen : Nat) : DecodeResult :=
  let chars := (input.take (input.length - 1)).map k.intoChar
  let truncated := (decodeLoopBytes bufLen chars [] false).2
  let output := (decodeLoopChars bufLen chars [] false).1
  if truncated then
    if (decodeBackoff output).isEmpty then .bufferTooSmall
    else .panicUnimplemented
  else .ok output none

/-- The number of code units the encoder needs for one grapheme cluster:
one unit per character, plus one for the carriage return inserted before
each line feed. -/
def requiredUnits (g : List Char) : Nat := (g.map fun c => if c = '\n' then 2 else 1).sum

/-- Total code units needed for a list of grapheme clusters. -/
def unitsLen (gs : List (List Char)) : Nat := (gs.map requiredUnits).sum

/-- The code units the encoder emits for one grapheme cluster (assuming all
its characters are representable): each character's unit, preceded by the
kind's carriage-return unit when the character is a line feed. -/
def clusterUnits (k : CharKind) (g : List Char) : List Nat :=
  g.flatMap fun c =>
    if c = '\n' then [k.crUnit, (k.encodeChar c).getD 0] else [(k.encodeChar c).getD 0]

/-- The code units the encoder emits for a list of grapheme clusters. -/
def flatUnits (k : CharKind) (gs : List (List Char)) : List Nat :=
  (gs.map (clusterUnits k)).flatten

/-- Overwrite a run of list elements starting at index `i` (the effect of the
encoder's successive `buffer[output_idx] = ...` stores). -/
def writeSeq (buf : List Nat) (i : Nat) : List Nat → List Nat
  | [] => buf
  | u :: us => writeSeq (buf.set i u) (i + 1) us

/-- A character the encoder accepts: not the null character, and
representable in the target kind. -/
def goodChar (k : CharKind) (c : Char) : Prop := c ≠ Char.ofNat 0 ∧ (k.encodeChar c).isSome

instance (k : CharKind) (c : Char) : Decidable (goodChar k c) := by
  unfold goodChar; infer_instance

/-- CR+LF expansion of a native string: what `encode` emits, read back as
characters (`\n` becomes `\r\n`; everything else is unchanged). -/
def expandCRLF : List Char → List Char
  | [] => []
  | c :: cs => (if c = '\n' then ['\r', c] else [c]) ++ expandCRLF cs

/-! ### Basic facts about the UTF-8 helpers -/

lemma utf8Bytes_ne_nil (c : Char) : utf8Bytes c ≠ [] := by
  unfold utf8Bytes
  dsimp only
  split_ifs <;> simp

lemma csize_pos (c : Char) : 0 < csize c := by
  unfold csize
  exact List.length_pos.mpr (utf8Bytes_ne_nil c)

lemma utf8Len_nil : utf8Len [] = 0 := rfl

lemma utf8Len_cons (c : Char) (s : List Char) : utf8Len (c :: s) = csize c + utf8Len s := by
  simp [utf8Len]

lemma utf8Len_append (s t : List Char) : utf8Len (s ++ t) = utf8Len s + utf8Len t := by
  simp [utf8Len]

lemma utf8Len_eq_zero {s : List Char} (h : utf8Len s = 0) : s = [] := by
  cases s with
  | nil => rfl
  | cons c cs =>
    rw [utf8Len_cons] at h
    have := csize_pos c
    omega

lemma utf8EncodeList_append (s t : List Char) :
    utf8EncodeList (s ++ t) = utf8EncodeList s ++ utf8EncodeList t := by
  induction s with
  | nil => rfl
  | cons c cs ih => simp [utf8EncodeList, ih]

lemma length_utf8EncodeList (s : List Char) : (utf8EncodeList s).length = utf8Len s := by
  induction s with
  | nil => rfl
  | cons c cs ih => simp [utf8EncodeList, utf8Len_cons, ih, csize]

/-! ### Facts about `writeSeq` (the encoder's buffer stores) -/

lemma writeSeq_length (us : List Nat) : ∀ (buf : List Nat) (i : Nat),
    (writeSeq buf i us).length = buf.length := by
  induction us with
  | nil => intro buf i; rfl
  | cons u us ih =>
    intro buf i
    rw [writeSeq, ih, List.length_set]

lemma take_set_succ {α : Type} (l : List α) (i : Nat) (u : α) (hi : i < l.length) :
    (l.set i u).take (i + 1) = l.take i ++ [u] := by
  rw [List.set_eq_take_append_cons_drop, if_pos hi]
  have hti : (List.take i l).length = i := by
    rw [List.length_take]; omega
  rw [List.take_append_eq_append_take, hti, List.take_take]
  have h1 : (i + 1) ⊓ i = i := by omega
  have h2 : i + 1 - i = 1 := by omega
  simp [h1, h2]

lemma take_set_self {α : Type} (l : List α) (i : Nat) (u : α) :
    (l.set i u).take i = l.take i := by
  by_cases hi : i < l.length
  · rw [List.set_eq_take_append_cons_drop, if_pos hi]
    have hti : (List.take i l).length = i := by
      rw [List.length_take]; omega
    rw [List.take_append_eq_append_take, hti, List.take_take]
    have h1 : i ⊓ i = i := by omega
    have h2 : i - i = 0 := by omega
    simp [h1, h2]
  · rw [List.set_eq_of_length_le (by omega)]

lemma writeSeq_eq_append (us : List Nat) : ∀ (buf : List Nat) (i : Nat),
    i + us.length ≤ buf.length →
    writeSeq buf i us = buf.take i ++ us ++ buf.drop (i + us.length) := by
  induction us with
  | nil =>
    intro buf i h
    simp [writeSeq, List.take_append_drop]
  | cons u us ih =>
    intro buf i h
    simp only [List.length_cons] at h
    have hi : i < buf.length := by omega
    rw [writeSeq, ih _ _ (by rw [List.length_set]; omega)]
    rw [take_set_succ _ _ _ hi]
    rw [List.drop_set, if_pos (by omega)]
    have : i + 1 + us.length = i + (us.length + 1) := by omega
    rw [this]
    simp

/-- The prefix of the buffer below the write position is untouched. -/
lemma writeSeq_take_of_le (us : List Nat) (buf : List Nat) (i j : Nat)
    (hj : j ≤ i) (h : i + us.length ≤ buf.length) :
    (writeSeq buf i us).take j = buf.take j := by
  rw [writeSeq_eq_append us buf i h]
  rw [List.take_append_of_le_length (by simp [List.length_take]; omega)]
  rw [List.take_append_of_le_length (by simp [List.length_take]; omega)]
  rw [List.take_take]
  congr 1
  omega

/-- The committed prefix after writing `us` at position `i`. -/
lemma writeSeq_take_end (us : List Nat) (buf : List Nat) (i : Nat)
    (h : i + us.length ≤ buf.length) :
    (writeSeq buf i us).take (i + us.length) = buf.take i ++ us := by
  rw [writeSeq_eq_append us buf i h]
  rw [List.take_append_of_le_length (by simp [List.length_take] <;> omega)]
  exact List.take_of_length_le (by simp [List.length_take] <;> omega)

/-! ### Characterization of `CStr::from_ints_with_nul` -/

lemma fromIntsGo_invalidChar (k : CharKind) (total : Nat) (rest : List Nat) :
    ∀ (pos p : Nat), fromIntsGo k total rest pos = .error (.invalidChar p) →
      pos ≤ p ∧ p - pos < rest.length ∧ k.decodeInt (rest.getD (p - pos) 0) = none ∧
      ∀ q, q < p - pos → ∃ c, k.decodeInt (rest.getD q 0) = some c ∧ c ≠ k.nulChar := by
  induction rest with
  | nil => intro pos p h; simp [fromIntsGo] at h
  | cons code rest ih =>
    intro pos p h
    simp only [fromIntsGo] at h
    cases hd : k.decodeInt code with
    | none =>
      rw [hd] at h
      simp only [Except.error.injEq, FromIntsWithNulError.invalidChar.injEq] at h
      subst h
      refine ⟨le_rfl, by simp, by simpa using hd, ?_⟩
      intro q hq
      omega
    | some c =>
      rw [hd] at h
      dsimp only at h
      by_cases hnul : c = k.nulChar
      · rw [if_pos hnul] at h
        split at h <;> simp at h
      · rw [if_neg hnul] at h
        obtain ⟨h1, h2, h3, h4⟩ := ih (pos + 1) p h
        refine ⟨by omega, by simp only [List.length_cons]; omega, ?_, ?_⟩
        · have hpp : p - pos = (p - (pos + 1)) + 1 := by omega
          rw [hpp, List.getD_cons_succ]
          exact h3
        · intro q hq
          cases q with
          | zero => exact ⟨c, by simpa using hd, hnul⟩
          | succ q' =>
            rw [List.getD_cons_succ]
            exact h4 q' (by omega)

lemma fromIntsGo_interiorNul (k : CharKind) (total : Nat) (rest : List Nat) :
    ∀ (pos p : Nat), fromIntsGo k total rest pos = .error (.interiorNul p) →
      pos ≤ p ∧ p - pos < rest.length ∧ k.decodeInt (rest.getD (p - pos) 0) = some k.nulChar ∧
      p ≠ total - 1 ∧
      ∀ q, q < p - pos → ∃ c, k.decodeInt (rest.getD q 0) = some c ∧ c ≠ k.nulChar := by
  induction rest with
  | nil => intro pos p h; simp [fromIntsGo] at h
  | cons code rest ih =>
    intro pos p h
    simp only [fromIntsGo] at h
    cases hd : k.decodeInt code with
    | none => rw [hd] at h; simp at h
    | some c =>
      rw [hd] at h
      dsimp only at h
      by_cases hnul : c = k.nulChar
      · rw [if_pos hnul] at h
        by_cases hlast : pos ≠ total - 1
        · rw [if_pos hlast] at h
          simp only [Except.error.injEq, FromIntsWithNulError.interiorNul.injEq] at h
          subst h
          refine ⟨le_rfl, by simp, ?_, hlast, ?_⟩
          · subst hnul
            simpa using hd
          · intro q hq; omega
        · rw [if_neg hlast] at h
          simp at h
      · rw [if_neg hnul] at h
        obtain ⟨h1, h2, h3, h4, h5⟩ := ih (pos + 1) p h
        refine ⟨by omega, by simp only [List.length_cons]; omega, ?_, h4, ?_⟩
        · have hpp : p - pos = (p - (pos + 1)) + 1 := by omega
          rw [hpp, List.getD_cons_succ]
          exact h3
        · intro q hq
          cases q with
          | zero => exact ⟨c, by simpa using hd, hnul⟩
          | succ q' =>
            rw [List.getD_cons_succ]
            exact h5 q' (by omega)

lemma fromIntsGo_ok (k : CharKind) (total : Nat) (rest : List Nat) :
    ∀ (pos : Nat), fromIntsGo k total rest pos = .ok () →
      ∃ j, j < rest.length ∧ pos + j = total - 1 ∧
        k.decodeInt (rest.getD j 0) = some k.nulChar ∧
        ∀ q, q < j → ∃ c, k.decodeInt (rest.getD q 0) = some c ∧ c ≠ k.nulChar := by
  induction rest with
  | nil => intro pos h; simp [fromIntsGo] at h
  | cons code rest ih =>
    intro pos h
    simp only [fromIntsGo] at h
    cases hd : k.decodeInt code with
    | none => rw [hd] at h; simp at h
    | some c =>
      rw [hd] at h
      dsimp only at h
      by_cases hnul : c = k.nulChar
      · rw [if_pos hnul] at h
        by_cases hlast : pos ≠ total - 1
        · rw [if_pos hlast] at h; simp at h
        · refine ⟨0, by simp, by omega, ?_, by omega⟩
          subst hnul
          simpa using hd
      · rw [if_neg hnul] at h
        obtain ⟨j, h1, h2, h3, h4⟩ := ih (pos + 1) h
        refine ⟨j + 1, by simp only [List.length_cons]; omega, by omega, ?_, ?_⟩
        · rw [List.getD_cons_succ]; exact h3
        · intro q hq
          cases q with
          | zero => exact ⟨c, by simpa using hd, hnul⟩
          | succ q' =>
            rw [List.getD_cons_succ]
            exact h4 q' (by omega)

lemma fromIntsGo_ok_of (k : CharKind) (total : Nat) (rest : List Nat) :
    ∀ (pos j : Nat), j < rest.length → pos + j = total - 1 →
      k.decodeInt (rest.getD j 0) = some k.nulChar →
      (∀ q, q < j → ∃ c, k.decodeInt (rest.getD q 0) = some c ∧ c ≠ k.nulChar) →
      fromIntsGo k total rest pos = .ok () := by
  induction rest with
  | nil => intro pos j hj; simp at hj
  | cons code rest ih =>
    intro pos j hj hlast hnul hq
    cases j with
    | zero =>
      rw [List.getD_cons_zero] at hnul
      simp only [fromIntsGo, hnul]
      have hlast' : ¬pos ≠ total - 1 := by omega
      simp [hlast']
    | succ j' =>
      obtain ⟨c, hc, hcn⟩ := hq 0 (by omega)
      rw [List.getD_cons_zero] at hc
      simp only [fromIntsGo, hc]
      rw [if_neg hcn]
      refine ih (pos + 1) j' (by simpa using hj) (by omega) (by simpa using hnul) ?_
      intro q hq'
      have := hq (q + 1) (by omega)
      simpa using this

lemma fromIntsGo_notNulTerminated (k : CharKind) (total : Nat) (rest : List Nat) :
    ∀ (pos : Nat), (fromIntsGo k total rest pos = .error .notNulTerminated ↔
      ∀ q, q < rest.length → ∃ c, k.decodeInt (rest.getD q 0) = some c ∧ c ≠ k.nulChar) := by
  induction rest with
  | nil =>
    intro pos
    constructor
    · intro _ q hq; simp at hq
    · intro _; simp [fromIntsGo]
  | cons code rest ih =>
    intro pos
    constructor
    · intro h
      simp only [fromIntsGo] at h
      cases hd : k.decodeInt code with
      | none => rw [hd] at h; simp at h
      | some c =>
        rw [hd] at h
        dsimp only at h
        by_cases hnul : c = k.nulChar
        · rw [if_pos hnul] at h
          split at h <;> simp at h
        · rw [if_neg hnul] at h
          intro q hq
          cases q with
          | zero => exact ⟨c, by simpa using hd, hnul⟩
          | succ q' =>
            rw [List.getD_cons_succ]
            exact (ih (pos + 1)).mp h q' (by simpa using hq)
    · intro h
      obtain ⟨c, hc, hcn⟩ := h 0 (by simp)
      rw [List.getD_cons_zero] at hc
      simp only [fromIntsGo, hc]
      rw [if_neg hcn]
      refine (ih (pos + 1)).mpr ?_
      intro q hq
      have := h (q + 1) (by simpa using hq)
      simpa using this

/-- C4: `from_ints_with_nul` yields exactly one of four outcomes, determined
in slice order: `InvalidChar(p)` at the first undecodable unit, with all
earlier units decoding to non-null characters; `InteriorNul(p)` at a decoded
null strictly before the final position, with all earlier units decoding to
non-null characters; success over the whole slice (terminator included) iff
the final unit decodes to null and all earlier units decode to non-null
characters; `NotNulTerminated` iff every unit decodes to a non-null
character.  (The outcomes are mutually exclusive because the function is
deterministic.) -/
theorem c4_fromIntsWithNul_cases (k : CharKind) (codes : List Nat) :
    (∀ p, fromIntsWithNul k codes = .error (.invalidChar p) →
        p < codes.length ∧ k.decodeInt (codes.getD p 0) = none ∧
        ∀ q, q < p → ∃ c, k.decodeInt (codes.getD q 0) = some c ∧ c ≠ k.nulChar) ∧
    (∀ p, fromIntsWithNul k codes = .error (.interiorNul p) →
        p + 1 < codes.length ∧ k.decodeInt (codes.getD p 0) = some k.nulChar ∧
        ∀ q, q < p → ∃ c, k.decodeInt (codes.getD q 0) = some c ∧ c ≠ k.nulChar) ∧
    (fromIntsWithNul k codes = .ok codes ↔
        codes ≠ [] ∧ k.decodeInt (codes.getD (codes.length - 1) 0) = some k.nulChar ∧
        ∀ q, q + 1 < codes.length → ∃ c, k.decodeInt (codes.getD q 0) = some c ∧ c ≠ k.nulChar) ∧
    (fromIntsWithNul k codes = .error .notNulTerminated ↔
        ∀ q, q < codes.length → ∃ c, k.decodeInt (codes.getD q 0) = some c ∧ c ≠ k.nulChar) ∧
    (∀ v, fromIntsWithNul k codes = .ok v → v = codes) := by
  have hmap_err : ∀ e, fromIntsWithNul k codes = .error e ↔
      fromIntsGo k codes.length codes 0 = .error e := by
    intro e
    unfold fromIntsWithNul
    cases fromIntsGo k codes.length codes 0 <;> simp [Except.map]
  have hmap_ok : ∀ v, fromIntsWithNul k codes = .ok v ↔
      (fromIntsGo k codes.length codes 0 = .ok () ∧ v = codes) := by
    intro v
    unfold fromIntsWithNul
    cases hgo : fromIntsGo k codes.length codes 0 with
    | error e => simp [Except.map]
    | ok u => cases u; simp [Except.map, eq_comm]
  refine ⟨?_, ?_, ?_, ?_, ?_⟩
  · intro p h
    obtain ⟨h1, h2, h3, h4⟩ :=
      fromIntsGo_invalidChar k codes.length codes 0 p ((hmap_err _).mp h)
    refine ⟨by omega, by simpa using h3, ?_⟩
    intro q hq
    exact h4 q (by omega)
  · intro p h
    obtain ⟨h1, h2, h3, h4, h5⟩ :=
      fromIntsGo_interiorNul k codes.length codes 0 p ((hmap_err _).mp h)
    refine ⟨by omega, by simpa using h3, ?_⟩
    intro q hq
    exact h5 q (by omega)
  · constructor
    · intro h
      obtain ⟨hgo, _⟩ := (hmap_ok _).mp h
      obtain ⟨j, h1, h2, h3, h4⟩ := fromIntsGo_ok k codes.length codes 0 hgo
      have hj : j = codes.length - 1 := by omega
      subst hj
      refine ⟨by intro hnil; subst hnil; simp at h1, h3, ?_⟩
      intro q hq
      exact h4 q (by omega)
    · intro ⟨hne, hnul, hq⟩
      have hlen : 0 < codes.length := List.length_pos.mpr hne
      refine (hmap_ok _).mpr ⟨?_, rfl⟩
      refine fromIntsGo_ok_of k codes.length codes 0 (codes.length - 1)
        (by omega) (by omega) hnul ?_
      intro q hq'
      exact hq q (by omega)
  · constructor
    · intro h
      exact (fromIntsGo_notNulTerminated k codes.length codes 0).mp ((hmap_err _).mp h)
    · intro h
      exact (hmap_err _).mpr ((fromIntsGo_notNulTerminated k codes.length codes 0).mpr h)
  · intro v h
    exact ((hmap_ok _).mp h).2

/-- C4 witness: validating the 16-bit units `[h, 0, i, 0]` fails with
`InteriorNul(1)`, and the characterization theorem instantiated there yields
the slice-order facts. -/
theorem c4_fromIntsWithNul_cases_witness :
    1 + 1 < ([104, 0, 105, 0] : List Nat).length ∧
    char16Kind.decodeInt (([104, 0, 105, 0] : List Nat).getD 1 0) = some char16Kind.nulChar ∧
    ∀ q, q < 1 → ∃ c, char16Kind.decodeInt (([104, 0, 105, 0] : List Nat).getD q 0) = some c ∧
      c ≠ char16Kind.nulChar :=
  (c4_fromIntsWithNul_cases char16Kind [104, 0, 105, 0]).2.1 1 rfl

/-- C1 (code bug): on success, `encode` does NOT return a view over just the
written prefix: line 196 of `strs.rs` wraps the ENTIRE buffer with
`CStr::from_ints_with_nul_unchecked(buffer)`.  Encoding `"a"` into a stale
3-unit buffer `[7, 7, 7]` succeeds with committed length 1, but the returned
view is `[97, 0, 7]`: its last element is the stale unit `7`, not the null
terminator, and its length exceeds the written prefix (committed units plus
terminator, i.e. 2). -/
theorem c1_encode_view_spans_whole_buffer :
    encode char8Kind [['a']] [7, 7, 7] =
      .ok { view := [97, 0, 7], encodedLen := 1, parsedLen := 1, remainder := none } ∧
    ([97, 0, 7] : List Nat).getLast? ≠ some char8Kind.nulUnit ∧
    ([97, 0, 7] : List Nat).length ≠ 1 + 1 :=
  ⟨rfl, by decide, by decide⟩

/-- C2 (code bug): `decode` does not always produce a value of the tagged
outcome type.  Decoding the Latin-1 view `[a, b, c, 0]` into a 2-byte buffer
truncates after `"ab"`, backs off one grapheme to the non-empty `"a"`, and
then reaches the `unimplemented!()` stub at the end of `decode` — a panic,
not a success and not `BufferTooSmall`. -/
theorem c2_decode_reaches_unimplemented :
    decode char8Kind [97, 98, 99, 0] 2 = .panicUnimplemented := by
  decide

/-- C3 (code bug): the offset carried by `encode`'s `InteriorNul` error is
taken from `grapheme.char_indices()`, so it is relative to the start of the
grapheme cluster containing the null, not to the start of the input.
Encoding `"a\x00"` (the null is at input byte offset 1) reports
`InteriorNul(0)`. -/
theorem c3_encode_interiorNul_offset_is_grapheme_relative :
    encode char8Kind [['a'], [Char.ofNat 0]] [0, 0, 0] = .error (.interiorNul 0) ∧
    (0 : Nat) ≠ 1 :=
  ⟨rfl, by decide⟩

/-- C8: encoding `"hi\n"` (grapheme clusters `h`, `i`, `\n`) into an 8-bit
buffer of capacity 4 (3 usable units plus terminator) succeeds: exactly the
units for `h` and `i` are committed, followed by the null terminator (the
carriage return for `\n` is written but the line feed no longer fits, so the
whole cluster is deferred and the terminator overwrites the carriage
return), and the remainder is `"\n"`. -/
theorem c8_encode_hi_lf_capacity_four (buffer : List Nat) (h : buffer.length = 4) :
    (encode char8Kind [['h'], ['i'], ['\n']] buffer).toOption.map
      (fun r => (r.view.take 3, r.encodedLen, r.parsedLen, r.remainder)) =
    some ([104, 105, 0], 2, 2, some ['\n']) := by
  rcases buffer with _ | ⟨b0, buffer⟩
  · simp at h
  rcases buffer with _ | ⟨b1, buffer⟩
  · simp at h
  rcases buffer with _ | ⟨b2, buffer⟩
  · simp at h
  rcases buffer with _ | ⟨b3, buffer⟩
  · simp at h
  rcases buffer with _ | ⟨b4, buffer⟩
  · rfl
  · simp only [List.length_cons] at h
    omega

/-- C8 witness: the capacity-4 example evaluated on the zeroed buffer. -/
theorem c8_encode_hi_lf_capacity_four_witness :
    (encode char8Kind [['h'], ['i'], ['\n']] [0, 0, 0, 0]).toOption.map
      (fun r => (r.view.take 3, r.encodedLen, r.parsedLen, r.remainder)) =
    some ([104, 105, 0], 2, 2, some ['\n']) :=
  c8_encode_hi_lf_capacity_four [0, 0, 0, 0] rfl

/-! ### Characterization of the encoder loops -/

lemma take_set_of_le {α : Type} (l : List α) (i j : Nat) (u : α) (h : j ≤ i) :
    (l.set i u).take j = l.take j := by
  by_cases hi : i < l.length
  · rw [List.set_eq_take_append_cons_drop, if_pos hi]
    rw [List.take_append_eq_append_take, List.take_take]
    have h1 : j ⊓ i = j := by omega
    have h2 : (List.take i l).length = i := by rw [List.length_take]; omega
    rw [h1, h2]
    have h3 : j - i = 0 := by omega
    simp [h3]
  · rw [List.set_eq_of_length_le (by omega)]

lemma requiredUnits_nil : requiredUnits [] = 0 := rfl

lemma requiredUnits_cons (c : Char) (cs : List Char) :
    requiredUnits (c :: cs) = (if c = '\n' then 2 else 1) + requiredUnits cs := by
  simp [requiredUnits]

lemma requiredUnits_pos {g : List Char} (hg : g ≠ []) : 0 < requiredUnits g := by
  cases g with
  | nil => exact absurd rfl hg
  | cons c cs =>
    rw [requiredUnits_cons]
    split <;> omega

lemma clusterUnits_nil (k : CharKind) : clusterUnits k [] = [] := rfl

lemma clusterUnits_cons (k : CharKind) (c : Char) (cs : List Char) :
    clusterUnits k (c :: cs) =
      (if c = '\n' then [k.crUnit, (k.encodeChar c).getD 0] else [(k.encodeChar c).getD 0]) ++
      clusterUnits k cs := by
  simp [clusterUnits]

lemma clusterUnits_length (k : CharKind) (g : List Char) :
    (clusterUnits k g).length = requiredUnits g := by
  induction g with
  | nil => rfl
  | cons c cs ih =>
    rw [clusterUnits_cons, requiredUnits_cons, List.length_append, ih]
    split <;> simp

lemma unitsLen_nil : unitsLen ([] : List (List Char)) = 0 := rfl

lemma unitsLen_cons (g : List Char) (gs : List (List Char)) :
    unitsLen (g :: gs) = requiredUnits g + unitsLen gs := by
  simp [unitsLen]

lemma unitsLen_append (a b : List (List Char)) :
    unitsLen (a ++ b) = unitsLen a + unitsLen b := by
  simp [unitsLen]

lemma flatUnits_nil (k : CharKind) : flatUnits k [] = [] := rfl

lemma flatUnits_cons (k : CharKind) (g : List Char) (gs : List (List Char)) :
    flatUnits k (g :: gs) = clusterUnits k g ++ flatUnits k gs := by
  simp [flatUnits]

lemma flatUnits_append (k : CharKind) (a b : List (List Char)) :
    flatUnits k (a ++ b) = flatUnits k a ++ flatUnits k b := by
  simp [flatUnits]

lemma flatUnits_length (k : CharKind) (gs : List (List Char)) :
    (flatUnits k gs).length = unitsLen gs := by
  induction gs with
  | nil => rfl
  | cons g gs ih =>
    rw [flatUnits_cons, unitsLen_cons, List.length_append, ih, clusterUnits_length]

lemma unitsLen_take_mono (gs : List (List Char)) {m m' : Nat} (h : m ≤ m') :
    unitsLen (gs.take m) ≤ unitsLen (gs.take m') := by
  have hsplit : gs.take m' = gs.take m ++ (gs.take m').drop m := by
    have h1 : (gs.take m').take m = gs.take m := by
      rw [List.take_take]
      congr 1
      omega
    conv_lhs => rw [← List.take_append_drop m (gs.take m')]
    rw [h1]
  rw [hsplit, unitsLen_append]
  omega

lemma utf8Len_flatten_take_mono (gs : List (List Char)) {m m' : Nat} (h : m ≤ m') :
    utf8Len (gs.take m).flatten ≤ utf8Len (gs.take m').flatten := by
  have hsplit : gs.take m' = gs.take m ++ (gs.take m').drop m := by
    have h1 : (gs.take m').take m = gs.take m := by
      rw [List.take_take]
      congr 1
      omega
    conv_lhs => rw [← List.take_append_drop m (gs.take m')]
    rw [h1]
  rw [hsplit, List.flatten_append, utf8Len_append]
  omega

lemma encodeInner_cont (k : CharKind) (cap : Nat) (g : List Char) :
    ∀ (off outIdx : Nat) (buf : List Nat) (o : Nat) (b : List Nat),
      outIdx ≤ cap →
      encodeInner k cap g off outIdx buf = .cont o b →
      o = outIdx + requiredUnits g ∧ o ≤ cap ∧
      b = writeSeq buf outIdx (clusterUnits k g) ∧
      ∀ c ∈ g, goodChar k c := by
  induction g with
  | nil =>
    intro off outIdx buf o b hcap h
    simp only [encodeInner, InnerStep.cont.injEq] at h
    obtain ⟨rfl, rfl⟩ := h
    simp [requiredUnits_nil, clusterUnits_nil, writeSeq, hcap]
  | cons c cs ih =>
    intro off outIdx buf o b hcap h
    simp only [encodeInner] at h
    by_cases h0 : c = Char.ofNat 0
    · rw [if_pos h0] at h
      simp at h
    rw [if_neg h0] at h
    by_cases hn : c = '\n'
    · rw [if_pos hn] at h
      by_cases hlt : outIdx < cap
      · rw [if_pos hlt] at h
        cases hu : k.encodeChar c with
        | none => rw [hu] at h; simp at h
        | some u =>
          rw [hu] at h
          dsimp only at h
          by_cases hlt2 : outIdx + 1 < cap
          · rw [if_pos hlt2] at h
            obtain ⟨ho, hoc, hb, hgood⟩ := ih _ _ _ _ _ (by omega) h
            refine ⟨?_, hoc, ?_, ?_⟩
            · rw [requiredUnits_cons, if_pos hn]
              omega
            · rw [hb, clusterUnits_cons, if_pos hn, hu]
              rfl
            · intro c' hc'
              rcases List.mem_cons.mp hc' with rfl | hmem
              · exact ⟨h0, by rw [hu]; rfl⟩
              · exact hgood c' hmem
          · rw [if_neg hlt2] at h
            simp at h
      · rw [if_neg hlt] at h
        simp at h
    · rw [if_neg hn] at h
      cases hu : k.encodeChar c with
      | none => rw [hu] at h; simp at h
      | some u =>
        rw [hu] at h
        dsimp only at h
        by_cases hlt : outIdx < cap
        · rw [if_pos hlt] at h
          obtain ⟨ho, hoc, hb, hgood⟩ := ih _ _ _ _ _ (by omega) h
          refine ⟨?_, hoc, ?_, ?_⟩
          · rw [requiredUnits_cons, if_neg hn]
            omega
          · rw [hb, clusterUnits_cons, if_neg hn, hu]
            rfl
          · intro c' hc'
            rcases List.mem_cons.mp hc' with rfl | hmem
            · exact ⟨h0, by rw [hu]; rfl⟩
            · exact hgood c' hmem
        · rw [if_neg hlt] at h
          simp at h

lemma encodeInner_brk (k : CharKind) (cap : Nat) (g : List Char) :
    ∀ (off outIdx : Nat) (buf : List Nat) (o : Nat) (b : List Nat),
      outIdx ≤ cap →
      encodeInner k cap g off outIdx buf = .brk o b →
      o = cap ∧ cap < outIdx + requiredUnits g ∧ b.length = buf.length ∧
      ∀ j, j ≤ outIdx → b.take j = buf.take j := by
  induction g with
  | nil =>
    intro off outIdx buf o b hcap h
    simp [encodeInner] at h
  | cons c cs ih =>
    intro off outIdx buf o b hcap h
    simp only [encodeInner] at h
    by_cases h0 : c = Char.ofNat 0
    · rw [if_pos h0] at h
      simp at h
    rw [if_neg h0] at h
    by_cases hn : c = '\n'
    · rw [if_pos hn] at h
      by_cases hlt : outIdx < cap
      · rw [if_pos hlt] at h
        cases hu : k.encodeChar c with
        | none => rw [hu] at h; simp at h
        | some u =>
          rw [hu] at h
          dsimp only at h
          by_cases hlt2 : outIdx + 1 < cap
          · rw [if_pos hlt2] at h
            obtain ⟨ho, hcnt, hlen, htake⟩ := ih _ _ _ _ _ (by omega) h
            refine ⟨ho, ?_, ?_, ?_⟩
            · rw [requiredUnits_cons, if_pos hn]
              omega
            · rw [hlen]
              simp [List.length_set]
            · intro j hj
              rw [htake j (by omega), take_set_of_le _ _ _ _ (by omega),
                take_set_of_le _ _ _ _ (by omega)]
          · rw [if_neg hlt2] at h
            simp only [InnerStep.brk.injEq] at h
            obtain ⟨rfl, rfl⟩ := h
            refine ⟨by omega, ?_, by simp [List.length_set], ?_⟩
            · rw [requiredUnits_cons, if_pos hn]
              omega
            · intro j hj
              rw [take_set_of_le _ _ _ _ (by omega)]
      · rw [if_neg hlt] at h
        simp only [InnerStep.brk.injEq] at h
        obtain ⟨rfl, rfl⟩ := h
        refine ⟨by omega, ?_, rfl, fun j _ => rfl⟩
        rw [requiredUnits_cons, if_pos hn]
        omega
    · rw [if_neg hn] at h
      cases hu : k.encodeChar c with
      | none => rw [hu] at h; simp at h
      | some u =>
        rw [hu] at h
        dsimp only at h
        by_cases hlt : outIdx < cap
        · rw [if_pos hlt] at h
          obtain ⟨ho, hcnt, hlen, htake⟩ := ih _ _ _ _ _ (by omega) h
          refine ⟨ho, ?_, ?_, ?_⟩
          · rw [requiredUnits_cons, if_neg hn]
            omega
          · rw [hlen]
            simp [List.length_set]
          · intro j hj
            rw [htake j (by omega), take_set_of_le _ _ _ _ (by omega)]
        · rw [if_neg hlt] at h
          simp only [InnerStep.brk.injEq] at h
          obtain ⟨rfl, rfl⟩ := h
          refine ⟨by omega, ?_, rfl, fun j _ => rfl⟩
          rw [requiredUnits_cons, if_neg hn]
          omega

lemma encodeInner_ne_err (k : CharKind) (cap : Nat) (g : List Char) :
    ∀ (off outIdx : Nat) (buf : List Nat) (e : StrEncodeError),
      (∀ c ∈ g, goodChar k c) →
      encodeInner k cap g off outIdx buf ≠ .err e := by
  induction g with
  | nil => intro off outIdx buf e _ h; simp [encodeInner] at h
  | cons c cs ih =>
    intro off outIdx buf e hgood h
    have hc : goodChar k c := hgood c (List.mem_cons_self c cs)
    obtain ⟨h0, hs⟩ := hc
    obtain ⟨u, hu⟩ := Option.isSome_iff_exists.mp hs
    simp only [encodeInner] at h
    rw [if_neg h0] at h
    by_cases hn : c = '\n'
    · rw [if_pos hn] at h
      by_cases hlt : outIdx < cap
      · rw [if_pos hlt, hu] at h
        dsimp only at h
        by_cases hlt2 : outIdx + 1 < cap
        · rw [if_pos hlt2] at h
          exact ih _ _ _ _ (fun c' hc' => hgood c' (List.mem_cons_of_mem c hc')) h
        · rw [if_neg hlt2] at h
          simp at h
      · rw [if_neg hlt] at h
        simp at h
    · rw [if_neg hn, hu] at h
      dsimp only at h
      by_cases hlt : outIdx < cap
      · rw [if_pos hlt] at h
        exact ih _ _ _ _ (fun c' hc' => hgood c' (List.mem_cons_of_mem c hc')) h
      · rw [if_neg hlt] at h
        simp at h

lemma encodeOuter_ok (k : CharKind) (cap : Nat) (gs : List (List Char)) :
    ∀ (parsed outIdx : Nat) (buf : List Nat) (p e o : Nat) (b : List Nat)
      (rest : List (List Char)),
      outIdx ≤ cap → cap < buf.length →
      encodeOuter k cap gs parsed outIdx outIdx buf = .ok (p, e, o, b, rest) →
      ∃ n, n ≤ gs.length ∧ rest = gs.drop n ∧
        p = parsed + utf8Len (gs.take n).flatten ∧
        e = outIdx + unitsLen (gs.take n) ∧ e ≤ cap ∧
        b.length = buf.length ∧
        b.take e = buf.take outIdx ++ flatUnits k (gs.take n) ∧
        (n = gs.length ∨ cap < outIdx + unitsLen (gs.take (n + 1))) ∧
        (∀ c ∈ (gs.take n).flatten, goodChar k c) := by
  induction gs with
  | nil =>
    intro parsed outIdx buf p e o b rest hcap hbl h
    simp only [encodeOuter, Except.ok.injEq, Prod.mk.injEq] at h
    obtain ⟨rfl, rfl, rfl, rfl, rfl⟩ := h
    exact ⟨0, le_rfl, rfl, by simp [utf8Len_nil], by simp [unitsLen_nil], hcap, rfl,
      by simp [flatUnits_nil], Or.inl rfl, by simp⟩
  | cons g gs ih =>
    intro parsed outIdx buf p e o b rest hcap hbl h
    simp only [encodeOuter] at h
    cases hinner : encodeInner k cap g 0 outIdx buf with
    | err e' => rw [hinner] at h; simp at h
    | brk o2 b2 =>
      rw [hinner] at h
      simp only [Except.ok.injEq, Prod.mk.injEq] at h
      obtain ⟨rfl, rfl, rfl, rfl, rfl⟩ := h
      obtain ⟨ho2, hcnt, hlen, htake⟩ := encodeInner_brk k cap g 0 outIdx buf o2 b2 hcap hinner
      refine ⟨0, by simp, rfl, by simp [utf8Len_nil], by simp [unitsLen_nil], hcap, hlen,
        ?_, ?_, by simp⟩
      · simp only [List.take_zero, flatUnits_nil, List.append_nil]
        exact htake outIdx le_rfl
      · right
        have h1 : (g :: gs).take 1 = [g] := by simp
        rw [h1, unitsLen_cons, unitsLen_nil]
        omega
    | cont o2 b2 =>
      rw [hinner] at h
      dsimp only at h
      obtain ⟨ho2, ho2c, hb2, hgood⟩ := encodeInner_cont k cap g 0 outIdx buf o2 b2 hcap hinner
      obtain ⟨n, hn, hrest, hp, he, hec, hbl2, htake, hdisj, hgood2⟩ :=
        ih (parsed + utf8Len g) o2 b2 p e o b rest ho2c (by rw [hb2, writeSeq_length]; exact hbl) h
      have hculen : (clusterUnits k g).length = requiredUnits g := clusterUnits_length k g
      have hwrite_le : outIdx + (clusterUnits k g).length ≤ buf.length := by
        rw [hculen]; omega
      refine ⟨n + 1, by simpa using hn, by simpa using hrest, ?_, ?_, hec, ?_, ?_, ?_, ?_⟩
      · rw [List.take_succ_cons, List.flatten_cons, utf8Len_append]
        omega
      · rw [List.take_succ_cons, unitsLen_cons]
        omega
      · rw [hbl2, hb2, writeSeq_length]
      · rw [List.take_succ_cons, flatUnits_cons, htake, hb2, ho2, ← hculen,
          writeSeq_take_end _ _ _ hwrite_le, List.append_assoc]
      · rcases hdisj with hd | hd
        · left; simpa using hd
        · right
          rw [List.take_succ_cons, unitsLen_cons]
          omega
      · intro c hc
        rw [List.take_succ_cons, List.flatten_cons] at hc
        rcases List.mem_append.mp hc with hm | hm
        · exact hgood c hm
        · exact hgood2 c hm

lemma encode_ok_spec (k : CharKind) (input : List (List Char)) (buffer : List Nat)
    (r : EncodeOk) (hb : buffer ≠ []) (h : encode k input buffer = .ok r) :
    ∃ n, n ≤ input.length ∧
      r.parsedLen = utf8Len (input.take n).flatten ∧
      r.encodedLen = unitsLen (input.take n) ∧
      r.encodedLen ≤ buffer.length - 1 ∧
      r.view.length = buffer.length ∧
      r.view.take r.encodedLen = flatUnits k (input.take n) ∧
      r.remainder = (if r.parsedLen < utf8Len input.flatten
        then some ((input.drop n).flatten) else none) ∧
      (n = input.length ∨ buffer.length - 1 < unitsLen (input.take (n + 1))) ∧
      (∀ c ∈ (input.take n).flatten, goodChar k c) := by
  have hlen : 0 < buffer.length := List.length_pos.mpr hb
  unfold encode at h
  dsimp only at h
  cases houter : encodeOuter k (buffer.length - 1) input 0 0 0 buffer with
  | error e => rw [houter] at h; simp at h
  | ok tup =>
    obtain ⟨p, e, o, b, rest⟩ := tup
    rw [houter] at h
    dsimp only at h
    obtain ⟨n, hn, hrest, hp, he, hec, hbl, htake, hdisj, hgood⟩ :=
      encodeOuter_ok k (buffer.length - 1) input 0 0 buffer p e o b rest
        (Nat.zero_le _) (by omega) houter
    by_cases hcond : p = 0 ∧
        (if p < utf8Len input.flatten then some rest.flatten
          else (none : Option (List Char))).isSome = true
    · rw [if_pos hcond] at h
      simp at h
    · rw [if_neg hcond] at h
      simp only [Except.ok.injEq] at h
      subst h
      refine ⟨n, hn, by simpa using hp, by simpa using he, by simpa using hec, ?_, ?_, ?_,
        ?_, hgood⟩
      · simp only [List.length_set]
        exact hbl
      · simp only
        rw [take_set_of_le _ _ _ _ (by simpa using he.ge.trans_eq rfl)]
        · simpa using htake
      · simp only
        rw [hrest]
      · rcases hdisj with hd | hd
        · exact Or.inl hd
        · exact Or.inr (by simpa using hd)

/-- C5 counterexample: the input `"\x00"` (one grapheme, one character) is
non-empty and its first grapheme does not fit a capacity-1 buffer (0 usable
units), yet `encode` reports `InteriorNul(0)`, not `BufferTooSmall`: the
null-rejection check runs before the capacity check. -/
theorem c5_counterexample_nul_beats_buffer :
    encode char8Kind [[Char.ofNat 0]] [9] = .error (.interiorNul 0) ∧
    StrEncodeError.interiorNul 0 ≠ StrEncodeError.bufferTooSmall :=
  ⟨rfl, by decide⟩

/-- C5 (amended): for a non-empty input whose first grapheme cluster contains
no null character and only representable characters, a destination buffer too
small to hold that first cluster (including any carriage-return insertion)
makes `encode` fail with `BufferTooSmall` rather than succeed emptily; and in
general `encode` succeeds only when at least one whole cluster was committed
(`parsed_input_len > 0`) or the input was empty. -/
theorem c5_encode_no_progress :
    (∀ (k : CharKind) (g : List Char) (gs : List (List Char)) (buffer : List Nat),
      buffer ≠ [] → g ≠ [] → (∀ c ∈ g, goodChar k c) →
      buffer.length - 1 < requiredUnits g →
      encode k (g :: gs) buffer = .error .bufferTooSmall) ∧
    (∀ (k : CharKind) (input : List (List Char)) (buffer : List Nat) (r : EncodeOk),
      encode k input buffer = .ok r → 0 < r.parsedLen ∨ input.flatten = []) := by
  constructor
  · intro k g gs buffer hb hg hgood hsmall
    cases hinner : encodeInner k (buffer.length - 1) g 0 0 buffer with
    | err e => exact absurd hinner (encodeInner_ne_err _ _ _ _ _ _ _ hgood)
    | cont o b =>
      obtain ⟨ho, hoc, -, -⟩ :=
        encodeInner_cont _ _ _ _ _ _ _ _ (Nat.zero_le _) hinner
      omega
    | brk o b =>
      unfold encode
      dsimp only
      simp only [encodeOuter, hinner]
      have hpos : 0 < utf8Len (g :: gs).flatten := by
        rw [List.flatten_cons, utf8Len_append]
        cases g with
        | nil => exact absurd rfl hg
        | cons c cs =>
          rw [utf8Len_cons]
          have := csize_pos c
          omega
      rw [if_pos hpos]
      simp
  · intro k input buffer r h
    unfold encode at h
    dsimp only at h
    cases houter : encodeOuter k (buffer.length - 1) input 0 0 0 buffer with
    | error e => rw [houter] at h; simp at h
    | ok tup =>
      obtain ⟨p, e, o, b, rest⟩ := tup
      rw [houter] at h
      dsimp only at h
      by_cases hp : p = 0
      · subst hp
        by_cases hrem : (0 : Nat) < utf8Len input.flatten
        · rw [if_pos hrem] at h
          rw [if_pos ⟨rfl, rfl⟩] at h
          simp at h
        · right
          exact utf8Len_eq_zero (by omega)
      · left
        rw [if_neg (fun hc => hp hc.1)] at h
        simp only [Except.ok.injEq] at h
        have hpl : r.parsedLen = p := by rw [← h]
        omega

/-- C5 witness: encoding the one-grapheme string `"\n"` (which needs the two
units CR LF) into a buffer of capacity 2 (1 usable unit) fails with
`BufferTooSmall`; and the successful capacity-3 encoding of `"a"` committed a
positive amount of input. -/
theorem c5_encode_no_progress_witness :
    encode char8Kind [['\n']] [0, 0] = .error .bufferTooSmall ∧
    (0 < ({ view := [97, 0, 7], encodedLen := 1, parsedLen := 1,
            remainder := none } : EncodeOk).parsedLen ∨
      ([['a']] : List (List Char)).flatten = []) :=
  ⟨c5_encode_no_progress.1 char8Kind ['\n'] [] [0, 0] (by decide) (by decide)
      (by decide) (by decide),
    c5_encode_no_progress.2 char8Kind [['a']] [7, 7, 7] _ rfl⟩

/-- C6: the encoder never commits a partial grapheme cluster — on success the
committed output is exactly the encoding of a whole number `n` of leading
clusters — and consumption is monotone in the destination capacity: with the
same input and a second, at-least-as-large buffer, at least as much input is
consumed and the committed output of the smaller run is a prefix of the
committed output of the larger run. -/
theorem c6_encode_monotone (k : CharKind) (input : List (List Char))
    (buf1 buf2 : List Nat) (r1 r2 : EncodeOk)
    (hb1 : buf1 ≠ []) (hlen : buf1.length ≤ buf2.length)
    (h1 : encode k input buf1 = .ok r1) (h2 : encode k input buf2 = .ok r2) :
    (∃ n, n ≤ input.length ∧ r1.parsedLen = utf8Len (input.take n).flatten ∧
       r1.encodedLen = unitsLen (input.take n) ∧
       r1.view.take r1.encodedLen = flatUnits k (input.take n)) ∧
    r1.parsedLen ≤ r2.parsedLen ∧ r1.encodedLen ≤ r2.encodedLen ∧
    r2.view.take r1.encodedLen = r1.view.take r1.encodedLen := by
  have hb2 : buf2 ≠ [] := by
    intro hnil
    subst hnil
    rw [List.length_nil, Nat.le_zero, List.length_eq_zero] at hlen
    exact hb1 hlen
  obtain ⟨n1, hn1, hp1, he1, hec1, -, htake1, -, hdisj1, -⟩ :=
    encode_ok_spec k input buf1 r1 hb1 h1
  obtain ⟨n2, hn2, hp2, he2, hec2, -, htake2, -, hdisj2, -⟩ :=
    encode_ok_spec k input buf2 r2 hb2 h2
  have hnn : n1 ≤ n2 := by
    by_contra hcon
    push_neg at hcon
    rcases hdisj2 with hd | hd
    · omega
    · have hmono : unitsLen (input.take (n2 + 1)) ≤ unitsLen (input.take n1) :=
        unitsLen_take_mono input (by omega)
      omega
  have hee : r1.encodedLen ≤ r2.encodedLen := by
    rw [he1, he2]
    exact unitsLen_take_mono input hnn
  refine ⟨⟨n1, hn1, hp1, he1, htake1⟩, ?_, hee, ?_⟩
  · rw [hp1, hp2]
    exact utf8Len_flatten_take_mono input hnn
  · have hsplit : input.take n2 = input.take n1 ++ (input.take n2).drop n1 := by
      have hx : (input.take n2).take n1 = input.take n1 := by
        rw [List.take_take]
        congr 1
        omega
      conv_lhs => rw [← List.take_append_drop n1 (input.take n2)]
      rw [hx]
    have hflat : flatUnits k (input.take n2) =
        flatUnits k (input.take n1) ++ flatUnits k ((input.take n2).drop n1) := by
      rw [hsplit, flatUnits_append]
      rw [← hsplit]
    have hlen1 : (flatUnits k (input.take n1)).length = r1.encodedLen := by
      rw [flatUnits_length, he1]
    have hstep : (r2.view.take r2.encodedLen).take r1.encodedLen =
        r2.view.take r1.encodedLen := by
      rw [List.take_take]
      congr 1
      omega
    rw [← hstep, htake2, hflat, htake1, ← hlen1, List.take_left]

/-- C6 witness: encoding `"ab"` (clusters `a`, `b`) into capacity 2 commits
only `a`; into capacity 3 it commits `ab`; consumption and committed output
are monotone, and the smaller committed output is a prefix of the larger. -/
theorem c6_encode_monotone_witness :
    (∃ n, n ≤ ([['a'], ['b']] : List (List Char)).length ∧
       ({ view := [97, 0], encodedLen := 1, parsedLen := 1,
          remainder := some ['b'] } : EncodeOk).parsedLen =
         utf8Len (([['a'], ['b']] : List (List Char)).take n).flatten ∧
       ({ view := [97, 0], encodedLen := 1, parsedLen := 1,
          remainder := some ['b'] } : EncodeOk).encodedLen =
         unitsLen (([['a'], ['b']] : List (List Char)).take n) ∧
       ({ view := [97, 0], encodedLen := 1, parsedLen := 1,
          remainder := some ['b'] } : EncodeOk).view.take 1 =
         flatUnits char8Kind (([['a'], ['b']] : List (List Char)).take n)) ∧
    (1 : Nat) ≤ 2 ∧ (1 : Nat) ≤ 2 ∧
    ([97, 98, 0] : List Nat).take 1 = ([97, 0] : List Nat).take 1 :=
  c6_encode_monotone char8Kind [['a'], ['b']] [0, 0] [0, 0, 0]
    { view := [97, 0], encodedLen := 1, parsedLen := 1, remainder := some ['b'] }
    { view := [97, 98, 0], encodedLen := 2, parsedLen := 2, remainder := none }
    (by decide) (by decide) rfl rfl

/-! ### The decoder loops: byte/character agreement and CR LF collapse -/

lemma utf8Bytes_cr : utf8Bytes '\r' = [13] := rfl

lemma utf8Bytes_lf : utf8Bytes '\n' = [10] := rfl

lemma utf8EncodeList_concat (s : List Char) (c : Char) :
    utf8EncodeList (s ++ [c]) = utf8EncodeList s ++ utf8Bytes c := by
  rw [utf8EncodeList_append]
  simp [utf8EncodeList]

/-- The effect of `buffer[output_idx-2] = b'\n'; output_idx -= 1` on a
committed byte prefix that ends with the CR LF pair. -/
lemma collapse_bytes (M : List Nat) :
    (((M ++ [13]) ++ [10]).set (((M ++ [13]) ++ [10]).length - 2) 10).take
      (((M ++ [13]) ++ [10]).length - 1) = M ++ [10] := by
  have hl : ((M ++ [13]) ++ [10]).length = M.length + 2 := by simp
  rw [hl]
  have h2 : M.length + 2 - 2 = M.length := by omega
  have h1 : M.length + 2 - 1 = M.length + 1 := by omega
  rw [h2, h1, List.append_assoc, List.set_append, if_neg (lt_irrefl _)]
  have h3 : M.length - M.length = 0 := by omega
  rw [h3]
  rw [List.take_append_eq_append_take, List.take_of_length_le (by omega)]
  have h4 : M.length + 1 - M.length = 1 := by omega
  rw [h4]
  rfl

lemma decodeLoop_agree (bufLen : Nat) (chars : List Char) : ∀ (acc : List Char) (b : Bool),
    (b = true → ∃ a, acc = a ++ ['\r']) →
    decodeLoopBytes bufLen chars (utf8EncodeList acc) b =
      (utf8EncodeList (decodeLoopChars bufLen chars acc b).1,
       (decodeLoopChars bufLen chars acc b).2) := by
  induction chars with
  | nil => intro acc b _; simp [decodeLoopBytes, decodeLoopChars]
  | cons ch rest ih =>
    intro acc b hinv
    simp only [decodeLoopBytes, decodeLoopChars]
    rw [length_utf8EncodeList]
    by_cases hfit : (utf8Bytes ch).length ≤ bufLen - utf8Len acc
    · rw [if_pos hfit, if_pos hfit]
      by_cases hcoll : b = true ∧ ch = '\n'
      · obtain ⟨hb, hch⟩ := hcoll
        subst hb
        subst hch
        obtain ⟨a, rfl⟩ := hinv rfl
        rw [if_pos ⟨rfl, rfl⟩, if_pos ⟨rfl, rfl⟩]
        rw [utf8EncodeList_concat, utf8Bytes_cr, utf8Bytes_lf, collapse_bytes,
          List.dropLast_concat]
        have hflag : (decide ('\n' = '\r')) = false := rfl
        rw [hflag]
        have hE : utf8EncodeList a ++ [10] = utf8EncodeList (a ++ ['\n']) := by
          rw [utf8EncodeList_concat, utf8Bytes_lf]
        rw [hE]
        exact ih (a ++ ['\n']) false (by simp)
      · rw [if_neg hcoll, if_neg hcoll]
        rw [← utf8EncodeList_concat]
        refine ih (acc ++ [ch]) (decide (ch = '\r')) ?_
        intro hdec
        exact ⟨acc, by rw [of_decide_eq_true hdec]⟩
    · rw [if_neg hfit, if_neg hfit]

/-- C10: at the point where `decode` reassembles its output with
`core::str::from_utf8(&buffer[..output_idx])`, the committed bytes are
exactly the UTF-8 encoding of the characters committed by the loop — i.e.
always valid UTF-8, so the `expect("The decoded UTF-8 should be correct")`
assertion can never fail: every committed write is the complete UTF-8
encoding of one character, and the CR/LF collapse only rewrites and drops
complete one-byte characters. -/
theorem c10_decode_bytes_always_valid_utf8 (k : CharKind) (input : List Nat) (bufLen : Nat) :
    (decodeLoopBytes bufLen ((input.take (input.length - 1)).map k.intoChar) [] false).1 =
      utf8EncodeList
        ((decodeLoopChars bufLen ((input.take (input.length - 1)).map k.intoChar) [] false).1) := by
  have h := decodeLoop_agree bufLen ((input.take (input.length - 1)).map k.intoChar) [] false
    (by simp)
  have h0 : utf8EncodeList [] = ([] : List Nat) := rfl
  rw [h0] at h
  rw [h]

/-- C9: whenever the decoder emits a line feed immediately after an emitted
carriage return (`after_carriage_return` set, committed bytes ending with
the CR byte 13), the pair is collapsed in place into a single native line
feed: the committed prefix becomes the old prefix with the trailing CR
replaced by LF, one byte shorter than it would be after the LF write; and
decoding the view `[a, CR, LF, b, 0]` into a sufficiently large buffer
yields `"a\nb"` with no remainder. -/
theorem c9_decode_crlf_collapse :
    (∀ (bufLen : Nat) (rest : List Char) (out : List Nat),
      out.getLast? = some 13 → 1 ≤ bufLen - out.length →
      decodeLoopBytes bufLen ('\n' :: rest) out true =
        decodeLoopBytes bufLen rest (out.dropLast ++ [10]) false ∧
      (out.dropLast ++ [10]).length = out.length) ∧
    decode char8Kind [97, 13, 10, 98, 0] 8 = .ok ['a', '\n', 'b'] none := by
  constructor
  · intro bufLen rest out hlast hfit
    have hne : out ≠ [] := by
      intro h
      subst h
      simp at hlast
    have hout : out.dropLast ++ [13] = out := by
      have hg := List.getLast?_eq_getLast out hne
      rw [hg] at hlast
      have h13 : out.getLast hne = 13 := by
        exact Option.some.inj hlast
      rw [← h13]
      exact List.dropLast_append_getLast hne
    constructor
    · simp only [decodeLoopBytes]
      rw [utf8Bytes_lf]
      rw [if_pos (by simpa using hfit)]
      rw [if_pos (by refine ⟨?_, ?_⟩ <;> trivial)]
      conv_lhs => rw [← hout]
      rw [collapse_bytes]
      have hflag : (decide ('\n' = '\r')) = false := rfl
      rw [hflag]
    · rw [List.length_append, List.length_dropLast]
      have := List.length_pos.mpr hne
      simp
      omega
  · rfl

/-- C9 witness: the collapse step applied at the concrete state where the
committed bytes are the single CR byte, plus the concrete decode example. -/
theorem c9_decode_crlf_collapse_witness :
    (decodeLoopBytes 8 ['\n'] [13] true =
        decodeLoopBytes 8 [] (([13] : List Nat).dropLast ++ [10]) false ∧
      (([13] : List Nat).dropLast ++ [10]).length = ([13] : List Nat).length) ∧
    decode char8Kind [97, 13, 10, 98, 0] 8 = .ok ['a', '\n', 'b'] none :=
  ⟨c9_decode_crlf_collapse.1 8 [] [13] (by decide) (by decide),
    c9_decode_crlf_collapse.2⟩

/-! ### Round trip with an exactly-sized buffer -/

lemma writeSeq_append (us vs : List Nat) : ∀ (buf : List Nat) (i : Nat),
    writeSeq buf i (us ++ vs) = writeSeq (writeSeq buf i us) (i + us.length) vs := by
  induction us with
  | nil => intro buf i; simp [writeSeq]
  | cons u us ih =>
    intro buf i
    rw [List.cons_append, writeSeq, writeSeq, ih]
    have h : i + 1 + us.length = i + (us.length + 1) := by omega
    rw [h]
    rfl

lemma encodeOuter_all (k : CharKind) (cap : Nat) (gs : List (List Char)) :
    ∀ (parsed outIdx : Nat) (buf : List Nat),
      outIdx + unitsLen gs ≤ cap → (∀ c ∈ gs.flatten, goodChar k c) →
      encodeOuter k cap gs parsed outIdx outIdx buf =
        .ok (parsed + utf8Len gs.flatten, outIdx + unitsLen gs, outIdx + unitsLen gs,
          writeSeq buf outIdx (flatUnits k gs), []) := by
  induction gs with
  | nil =>
    intro parsed outIdx buf _ _
    simp [encodeOuter, utf8Len_nil, unitsLen_nil, flatUnits_nil, writeSeq]
  | cons g gs ih =>
    intro parsed outIdx buf hcap hgood
    rw [unitsLen_cons] at hcap
    have hcapIn : outIdx ≤ cap := by omega
    have hgood1 : ∀ c ∈ g, goodChar k c := by
      intro c hc
      exact hgood c (by rw [List.flatten_cons]; exact List.mem_append.mpr (Or.inl hc))
    have hgood2 : ∀ c ∈ gs.flatten, goodChar k c := by
      intro c hc
      exact hgood c (by rw [List.flatten_cons]; exact List.mem_append.mpr (Or.inr hc))
    cases hinner : encodeInner k cap g 0 outIdx buf with
    | err e => exact absurd hinner (encodeInner_ne_err _ _ _ _ _ _ _ hgood1)
    | brk o b =>
      obtain ⟨-, hcnt, -, -⟩ := encodeInner_brk _ _ _ _ _ _ _ _ hcapIn hinner
      omega
    | cont o b =>
      obtain ⟨ho, -, hb, -⟩ := encodeInner_cont _ _ _ _ _ _ _ _ hcapIn hinner
      simp only [encodeOuter, hinner]
      subst ho
      subst hb
      rw [ih (parsed + utf8Len g) (outIdx + requiredUnits g) _ (by omega) hgood2]
      rw [List.flatten_cons, utf8Len_append, flatUnits_cons, writeSeq_append,
        unitsLen_cons, clusterUnits_length]
      have h1 : parsed + utf8Len g + utf8Len gs.flatten =
          parsed + (utf8Len g + utf8Len gs.flatten) := by omega
      have h2 : outIdx + requiredUnits g + unitsLen gs =
          outIdx + (requiredUnits g + unitsLen gs) := by omega
      rw [h1, h2]

lemma encode_all (k : CharKind) (input : List (List Char)) (buffer : List Nat)
    (hgood : ∀ c ∈ input.flatten, goodChar k c)
    (hblen : buffer.length = unitsLen input + 1) :
    encode k input buffer =
      .ok { view := flatUnits k input ++ [k.nulUnit], encodedLen := unitsLen input,
            parsedLen := utf8Len input.flatten, remainder := none } := by
  have hflen : (flatUnits k input).length = unitsLen input := flatUnits_length k input
  have hcap : buffer.length - 1 = unitsLen input := by omega
  unfold encode
  dsimp only
  rw [hcap]
  rw [encodeOuter_all k (unitsLen input) input 0 0 buffer (by omega) hgood]
  dsimp only
  have hnlt : ¬(0 + utf8Len input.flatten < utf8Len input.flatten) := by omega
  rw [if_neg hnlt]
  have houter : ¬(0 + utf8Len input.flatten = 0 ∧
      (none : Option (List Char)).isSome = true) := by
    intro hc
    simpa using hc.2
  rw [if_neg houter]
  have hwrite : writeSeq buffer 0 (flatUnits k input) =
      flatUnits k input ++ buffer.drop (unitsLen input) := by
    rw [writeSeq_eq_append _ _ _ (by omega)]
    rw [hflen]
    simp
  obtain ⟨x, hx⟩ : ∃ x, buffer.drop (unitsLen input) = [x] := by
    apply List.length_eq_one.mp
    rw [List.length_drop]
    omega
  rw [hwrite, hx]
  have hset : (flatUnits k input ++ [x]).set (0 + unitsLen input) k.nulUnit =
      flatUnits k input ++ [k.nulUnit] := by
    rw [Nat.zero_add, List.set_append, if_neg (by rw [hflen]; omega)]
    have h0 : unitsLen input - (flatUnits k input).length = 0 := by
      rw [hflen, Nat.sub_self]
    rw [h0]
    rfl
  rw [hset]
  simp

/-- C7 counterexample: with a larger-than-needed destination buffer holding a
stale unit after the written prefix, the round trip fails even for a string
needing no normalization: `encode "a"` into `[0, 0, 98]` returns a view over
the whole buffer, `[97, 0, 98]`, and decoding that view yields `"a\x00"`
(the view's interior terminator and the stale `98 = b` unit are traversed by
`char_indices`, which only drops the view's final element), not `"a"`. -/
theorem c7_counterexample_slack_buffer :
    encode char8Kind [['a']] [0, 0, 98] =
      .ok { view := [97, 0, 98], encodedLen := 1, parsedLen := 1, remainder := none } ∧
    decode char8Kind [97, 0, 98] 8 = .ok ['a', Char.ofNat 0] none ∧
    ['a', Char.ofNat 0] ≠ ['a'] :=
  ⟨rfl, rfl, by decide⟩

lemma expandCRLF_append (s t : List Char) :
    expandCRLF (s ++ t) = expandCRLF s ++ expandCRLF t := by
  induction s with
  | nil => rfl
  | cons c cs ih => simp [expandCRLF, ih]

lemma map_intoChar_clusterUnits (k : CharKind) (g : List Char)
    (hround : ∀ c u, k.encodeChar c = some u → k.intoChar u = c)
    (hcr : k.intoChar k.crUnit = '\r')
    (hgood : ∀ c ∈ g, (k.encodeChar c).isSome) :
    (clusterUnits k g).map k.intoChar = expandCRLF g := by
  induction g with
  | nil => rfl
  | cons c cs ih =>
    obtain ⟨u, hu⟩ := Option.isSome_iff_exists.mp (hgood c (List.mem_cons_self c cs))
    have hui : k.intoChar ((k.encodeChar c).getD 0) = c := by
      rw [hu, Option.getD_some]
      exact hround c u hu
    rw [clusterUnits_cons, expandCRLF, List.map_append,
      ih (fun c' hc' => hgood c' (List.mem_cons_of_mem c hc'))]
    congr 1
    by_cases hn : c = '\n'
    · rw [if_pos hn, if_pos hn]
      simp [hcr, hui]
    · rw [if_neg hn, if_neg hn]
      simp [hui]

lemma map_intoChar_flatUnits (k : CharKind) (gs : List (List Char))
    (hround : ∀ c u, k.encodeChar c = some u → k.intoChar u = c)
    (hcr : k.intoChar k.crUnit = '\r')
    (hgood : ∀ c ∈ gs.flatten, (k.encodeChar c).isSome) :
    (flatUnits k gs).map k.intoChar = expandCRLF gs.flatten := by
  induction gs with
  | nil => rfl
  | cons g gs ih =>
    rw [flatUnits_cons, List.flatten_cons, List.map_append, expandCRLF_append]
    rw [map_intoChar_clusterUnits k g hround hcr
      (fun c hc => hgood c (by rw [List.flatten_cons]; exact List.mem_append.mpr (Or.inl hc)))]
    rw [ih (fun c hc => hgood c (by rw [List.flatten_cons]; exact List.mem_append.mpr (Or.inr hc)))]

lemma utf8Len_singleton (c : Char) : utf8Len [c] = csize c := by
  rw [utf8Len_cons, utf8Len_nil]
  omega

lemma decodeLoopChars_expand (bufLen : Nat) : ∀ (s acc : List Char) (b : Bool),
    utf8Len acc + utf8Len (expandCRLF s) ≤ bufLen →
    decodeLoopChars bufLen (expandCRLF s) acc b = (acc ++ s, false) := by
  intro s
  induction s with
  | nil => intro acc b _; simp [expandCRLF, decodeLoopChars]
  | cons c t ih =>
    intro acc b h
    rw [expandCRLF] at h ⊢
    by_cases hn : c = '\n'
    · subst hn
      rw [if_pos rfl] at h ⊢
      rw [utf8Len_append] at h
      have hexp : utf8Len ['\r', '\n'] = 2 := rfl
      rw [hexp] at h
      simp only [List.cons_append, List.nil_append]
      rw [decodeLoopChars]
      have hszr : (utf8Bytes '\r').length = 1 := rfl
      rw [hszr, if_pos (by omega)]
      rw [if_neg (fun hx => by exact absurd hx.2 (by decide))]
      have hfr : (decide ('\r' = '\r')) = true := rfl
      rw [hfr]
      rw [decodeLoopChars]
      have hszn : (utf8Bytes '\n').length = 1 := rfl
      have hacc : utf8Len (acc ++ ['\r']) = utf8Len acc + 1 := by
        rw [utf8Len_append, utf8Len_singleton]
        rfl
      rw [hszn, if_pos (by rw [hacc]; omega)]
      rw [if_pos (by refine ⟨?_, ?_⟩ <;> trivial)]
      rw [List.dropLast_concat]
      have hfn : (decide ('\n' = '\r')) = false := rfl
      rw [hfn]
      rw [ih (acc ++ ['\n']) false
        (by rw [utf8Len_append, utf8Len_singleton]; have : csize '\n' = 1 := rfl; omega)]
      simp
    · rw [if_neg hn] at h ⊢
      rw [utf8Len_append, utf8Len_singleton] at h
      simp only [List.cons_append, List.nil_append]
      rw [decodeLoopChars]
      rw [if_pos (by unfold csize at h; omega)]
      rw [if_neg (fun hx => hn hx.2)]
      rw [ih (acc ++ [c]) (decide (c = '\r'))
        (by rw [utf8Len_append, utf8Len_singleton]; omega)]
      simp

/-- C7 (amended): for every native string (given by its grapheme clusters)
containing no null character and only representable characters, encoding
into a destination buffer of EXACTLY the required size (committed units plus
one slot for the terminator — so the returned whole-buffer view coincides
with the written prefix) consumes the whole input, and decoding the
resulting view with a sufficiently large byte buffer reproduces the original
string: each native line feed became CR LF on encode and is collapsed back
on decode. -/
theorem c7_roundtrip_exact_buffer (k : CharKind) (input : List (List Char))
    (buffer : List Nat) (bufLen : Nat)
    (hgood : ∀ c ∈ input.flatten, goodChar k c)
    (hround : ∀ c u, k.encodeChar c = some u → k.intoChar u = c)
    (hcr : k.intoChar k.crUnit = '\r')
    (hblen : buffer.length = unitsLen input + 1)
    (hbuf : utf8Len (expandCRLF input.flatten) ≤ bufLen) :
    ∃ r, encode k input buffer = .ok r ∧ r.remainder = none ∧
      decode k r.view bufLen = .ok input.flatten none := by
  refine ⟨_, encode_all k input buffer hgood hblen, rfl, ?_⟩
  unfold decode
  dsimp only
  have htake : (flatUnits k input ++ [k.nulUnit]).take
      ((flatUnits k input ++ [k.nulUnit]).length - 1) = flatUnits k input := by
    have hl2 : (flatUnits k input ++ [k.nulUnit]).length - 1 = (flatUnits k input).length := by
      simp
    rw [hl2]
    exact List.take_left _ _
  rw [htake]
  rw [map_intoChar_flatUnits k input hround hcr (fun c hc => (hgood c hc).2)]
  have hchars := decodeLoopChars_expand bufLen input.flatten [] false
    (by rw [utf8Len_nil]; omega)
  have hagree := decodeLoop_agree bufLen (expandCRLF input.flatten) [] false (by simp)
  have h0 : utf8EncodeList [] = ([] : List Nat) := rfl
  rw [h0] at hagree
  rw [hagree, hchars]
  simp

/-- Round-trip coherence of the Latin-1 kind: decoding a unit produced by
encoding a character gives back the character. -/
lemma char8Kind_round : ∀ (c : Char) (u : Nat),
    char8Kind.encodeChar c = some u → char8Kind.intoChar u = c := by
  intro c u h
  unfold char8Kind at h ⊢
  dsimp only at h ⊢
  by_cases hc : c.toNat < 256
  · rw [if_pos hc] at h
    rw [← Option.some.inj h]
    exact Char.ofNat_toNat c
  · rw [if_neg hc] at h
    exact absurd h (by simp)

/-- C7 witness: the exact-buffer round trip evaluated on `"hi\n"` with the
Latin-1 kind — the 5-unit buffer (`h i CR LF` plus terminator) is exactly
filled and decoding returns `"hi\n"`. -/
theorem c7_roundtrip_exact_buffer_witness :
    ∃ r, encode char8Kind [['h'], ['i'], ['\n']] [0, 0, 0, 0, 0] = .ok r ∧
      r.remainder = none ∧
      decode char8Kind r.view 16 =
        .ok (([['h'], ['i'], ['\n']] : List (List Char)).flatten) none :=
  c7_roundtrip_exact_buffer char8Kind [['h'], ['i'], ['\n']] [0, 0, 0, 0, 0] 16
    (by decide) char8Kind_round rfl (by decide) (by decide)
